import Mathlib

/-!
Shallow embedding of the Union-Find (Disjoint Set Union) code of the repository:
the class `UnionFind` of `UnionFind.cpp` (path-compressing `find`, `unionSets`
by rank, a three-argument overload `unionSets(u,v,byRank)`, `unionBySize` with
an external size vector, `connected`) together with the documented optimized
variant of the Union-Find notes, whose `unite` returns a `Bool` and maintains a
`components` counter.  The C++ vectors of length `n` are modelled as functions
`Nat → Nat` paired with the length `n`; a vector write `parent[i] = r` becomes
`Function.update parent i r`.
-/

/-- One Union-Find state: the length `n` of the vectors, the contents of the
`parent` and `rank` vectors, and the `components` counter of the documented
optimized class (the class in `UnionFind.cpp` simply never touches it). -/
structure UF where
  n : Nat
  parent : Nat → Nat
  rank : Nat → Nat
  components : Nat

/-- The constructor `UnionFind(int n)`: `parent[i] = i`, `rank[i] = 0` and (in
the documented class) `components = n`. -/
def UF.construct (n : Nat) : UF :=
  ⟨n, fun i => i, fun _ => 0, n⟩

/-- The recursion of `find` with path compression,
`if (parent[u] != u) { parent[u] = find(parent[u]); } return parent[u];`,
made structurally recursive by an explicit fuel argument.  It returns the
updated parent vector and the discovered root.  Under the acyclicity invariant
a fuel of `n` always suffices (chains have fewer than `n` steps), so the
fuel-exhausted branch is never reached from a well-formed state. -/
def findAux (p : Nat → Nat) : Nat → Nat → (Nat → Nat) × Nat
  | 0, u => (p, u)
  | f + 1, u =>
    if p u = u then (p, u)
    else
      let r := findAux p f (p u)
      (Function.update r.1 u r.2, r.2)

/-- `int find(int u)` of `UnionFind.cpp` (identical to `find` of the documented
class): returns the updated state and the root. -/
def UF.find (s : UF) (u : Nat) : UF × Nat :=
  let r := findAux s.parent s.n u
  ({ s with parent := r.1 }, r.2)

/-- Plain root-ward traversal of the parent vector (no compression), with
fuel: follow `parent` until a fixed point is hit or the fuel runs out. -/
def rootFuel (p : Nat → Nat) : Nat → Nat → Nat
  | 0, u => u
  | f + 1, u => if p u = u then u else rootFuel p f (p u)

/-- The root of `u`'s set, computed by traversing at most `n` parent links;
under the acyclicity invariant this is the representative that `find`
returns. -/
def UF.rootD (s : UF) (u : Nat) : Nat :=
  rootFuel s.parent s.n u

/-- `u` is a root of the parent vector `p`: `parent[u] == u`. -/
def IsRoot (p : Nat → Nat) (u : Nat) : Prop := p u = u

/-- `r` is the root of `u`'s parent chain in `p`: `r` is reachable from `u`
by repeatedly following `p`, and `r` is a fixed point of `p`. -/
def RootOf (p : Nat → Nat) (u r : Nat) : Prop :=
  (∃ k, p^[k] u = r) ∧ p r = r

/-- Well-formedness of a parent vector of length `n`: entries of valid
elements stay in range, positions outside the vector are untouched (they keep
the identity value they would have, so that the model is insensitive to
out-of-range junk), and every valid element's parent chain reaches a root. -/
structure WFp (n : Nat) (p : Nat → Nat) : Prop where
  inRange : ∀ u, u < n → p u < n
  fixOutside : ∀ u, n ≤ u → p u = u
  hasRoot : ∀ u, u < n → ∃ r, RootOf p u r

/-- `void unionSets(int u, int v)` of `UnionFind.cpp`: union by rank, no
return value, no counter. -/
def UF.unionSets (s : UF) (u v : Nat) : UF :=
  let fu := s.find u
  let fv := fu.1.find v
  let s2 := fv.1
  let rootU := fu.2
  let rootV := fv.2
  if rootU = rootV then s2
  else if s2.rank rootU < s2.rank rootV then
    { s2 with parent := Function.update s2.parent rootU rootV }
  else if s2.rank rootV < s2.rank rootU then
    { s2 with parent := Function.update s2.parent rootV rootU }
  else
    { s2 with parent := Function.update s2.parent rootV rootU,
              rank := Function.update s2.rank rootU (s2.rank rootU + 1) }

/-- `void unionSets(int u, int v, bool byRank)` of `UnionFind.cpp`: with
`byRank` it delegates to the two-argument version; otherwise it performs the
simple union `parent[rootV] = rootU` without consulting ranks. -/
def UF.unionSets3 (s : UF) (u v : Nat) (byRank : Bool) : UF :=
  if byRank then s.unionSets u v
  else
    let fu := s.find u
    let fv := fu.1.find v
    let s2 := fv.1
    let rootU := fu.2
    let rootV := fv.2
    if rootU = rootV then s2
    else { s2 with parent := Function.update s2.parent rootV rootU }

/-- `bool unite(int x, int y)` of the documented optimized class: union by
rank that returns `false` (and does not touch the counter) when the two roots
coincide, and otherwise merges, decrements `components` and returns `true`. -/
def UF.unite (s : UF) (x y : Nat) : UF × Bool :=
  let fx := s.find x
  let fy := fx.1.find y
  let s2 := fy.1
  let rootX := fx.2
  let rootY := fy.2
  if rootX = rootY then (s2, false)
  else
    let s3 :=
      if s2.rank rootX < s2.rank rootY then
        { s2 with parent := Function.update s2.parent rootX rootY }
      else if s2.rank rootY < s2.rank rootX then
        { s2 with parent := Function.update s2.parent rootY rootX }
      else
        { s2 with parent := Function.update s2.parent rootY rootX,
                  rank := Function.update s2.rank rootX (s2.rank rootX + 1) }
    ({ s3 with components := s3.components - 1 }, true)

/-- `void unionBySize(int u, int v, vector<int>& size)` of `UnionFind.cpp`:
union by size over an externally supplied size vector; returns the updated
state together with the updated size vector. -/
def UF.unionBySize (s : UF) (u v : Nat) (size : Nat → Nat) :
    UF × (Nat → Nat) :=
  let fu := s.find u
  let fv := fu.1.find v
  let s2 := fv.1
  let rootU := fu.2
  let rootV := fv.2
  if rootU = rootV then (s2, size)
  else if size rootU < size rootV then
    ({ s2 with parent := Function.update s2.parent rootU rootV },
      Function.update size rootV (size rootV + size rootU))
  else
    ({ s2 with parent := Function.update s2.parent rootV rootU },
      Function.update size rootU (size rootU + size rootV))

/-- `bool connected(int u, int v)`: `return find(u) == find(v);`, with the
path compression of the two `find` calls kept in the returned state. -/
def UF.connected (s : UF) (u v : Nat) : UF × Bool :=
  let fu := s.find u
  let fv := fu.1.find v
  (fv.1, decide (fu.2 = fv.2))

/-- `int getComponents()` of the documented optimized class. -/
def UF.getComponents (s : UF) : Nat := s.components

/-! ### Basic facts about parent-chain traversal -/

theorem rootFuel_fix (p : Nat → Nat) (f : Nat) {u : Nat} (h : p u = u) :
    rootFuel p f u = u := by
  cases f with
  | zero => rfl
  | succ f => simp [rootFuel, h]

theorem rootFuel_succ (p : Nat → Nat) (f u : Nat) :
    rootFuel p (f + 1) u = if p u = u then u else rootFuel p f (p u) := rfl

/-- The traversal with fuel `f` reached an actual root. -/
def ReachesIn (p : Nat → Nat) (f u : Nat) : Prop :=
  p (rootFuel p f u) = rootFuel p f u

theorem rootFuel_mono (p : Nat → Nat) {f g u : Nat} (h : ReachesIn p f u)
    (hfg : f ≤ g) : rootFuel p g u = rootFuel p f u := by
  induction f generalizing u g with
  | zero =>
    simp only [rootFuel] at h ⊢
    exact rootFuel_fix p g h
  | succ f ih =>
    cases g with
    | zero => omega
    | succ g =>
      by_cases hpu : p u = u
      · simp [rootFuel, hpu]
      · unfold ReachesIn at h
        rw [rootFuel_succ, if_neg hpu] at h ⊢
        rw [rootFuel_succ, if_neg hpu]
        exact ih h (by omega)

theorem reachesIn_mono (p : Nat → Nat) {f g u : Nat} (h : ReachesIn p f u)
    (hfg : f ≤ g) : ReachesIn p g u := by
  unfold ReachesIn
  rw [rootFuel_mono p h hfg]
  exact h

theorem rootFuel_exists_iterate (p : Nat → Nat) (f u : Nat) :
    ∃ k, k ≤ f ∧ p^[k] u = rootFuel p f u := by
  induction f generalizing u with
  | zero => exact ⟨0, Nat.le_refl 0, rfl⟩
  | succ f ih =>
    by_cases hpu : p u = u
    · exact ⟨0, Nat.zero_le _, by simp [rootFuel, hpu]⟩
    · obtain ⟨k, hk, hit⟩ := ih (p u)
      refine ⟨k + 1, by omega, ?_⟩
      rw [Function.iterate_succ_apply, hit, rootFuel_succ, if_neg hpu]

theorem rootOf_of_reachesIn {p : Nat → Nat} {f u : Nat}
    (h : ReachesIn p f u) : RootOf p u (rootFuel p f u) := by
  obtain ⟨k, _, hit⟩ := rootFuel_exists_iterate p f u
  exact ⟨⟨k, hit⟩, h⟩

theorem rootFuel_of_iterate {p : Nat → Nat} {k u r : Nat}
    (hk : p^[k] u = r) (_hr : p r = r) : rootFuel p k u = r := by
  induction k generalizing u with
  | zero => exact hk
  | succ k ih =>
    by_cases hpu : p u = u
    · rw [Function.iterate_fixed hpu] at hk
      rw [rootFuel_fix p _ hpu, hk]
    · rw [rootFuel_succ, if_neg hpu]
      exact ih (by rw [← Function.iterate_succ_apply]; exact hk)

theorem reachesIn_of_iterate {p : Nat → Nat} {k u r : Nat}
    (hk : p^[k] u = r) (hr : p r = r) : ReachesIn p k u := by
  unfold ReachesIn
  rw [rootFuel_of_iterate hk hr, hr]

theorem rootOf_unique {p : Nat → Nat} {u r r' : Nat}
    (h : RootOf p u r) (h' : RootOf p u r') : r = r' := by
  obtain ⟨⟨k, hk⟩, hr⟩ := h
  obtain ⟨⟨k', hk'⟩, hr'⟩ := h'
  have h1 : rootFuel p k u = r := rootFuel_of_iterate hk hr
  have h2 : rootFuel p k' u = r' := rootFuel_of_iterate hk' hr'
  rcases Nat.le_total k k' with hle | hle
  · have := rootFuel_mono p (f := k) (g := k') (reachesIn_of_iterate hk hr) hle
    rw [h2, h1] at this
    exact this.symm
  · have := rootFuel_mono p (f := k') (g := k) (reachesIn_of_iterate hk' hr') hle
    rw [h1, h2] at this
    exact this

theorem rootOf_self {p : Nat → Nat} {u : Nat} (h : p u = u) :
    RootOf p u u := ⟨⟨0, rfl⟩, h⟩

theorem rootOf_step {p : Nat → Nat} {u r : Nat} (h : RootOf p (p u) r) :
    RootOf p u r := by
  obtain ⟨⟨k, hk⟩, hr⟩ := h
  exact ⟨⟨k + 1, by rw [Function.iterate_succ_apply]; exact hk⟩, hr⟩

theorem rootOf_unstep {p : Nat → Nat} {u r : Nat} (h : RootOf p u r) :
    RootOf p (p u) r := by
  obtain ⟨⟨k, hk⟩, hr⟩ := h
  by_cases hpu : p u = u
  · exact ⟨⟨k, by rw [hpu]; exact hk⟩, hr⟩
  · cases k with
    | zero =>
      simp only [Function.iterate_zero_apply] at hk
      rw [← hk] at hr
      exact absurd hr hpu
    | succ k =>
      exact ⟨⟨k, by rw [← Function.iterate_succ_apply]; exact hk⟩, hr⟩

theorem rootOf_iterate {p : Nat → Nat} {u r : Nat} (h : RootOf p u r)
    (k : Nat) : RootOf p (p^[k] u) r := by
  induction k with
  | zero => exact h
  | succ k ih =>
    rw [Function.iterate_succ_apply']
    exact rootOf_unstep ih

theorem iterate_lt {n : Nat} {p : Nat → Nat} (hin : ∀ v, v < n → p v < n)
    {u : Nat} (hu : u < n) (k : Nat) : p^[k] u < n := by
  induction k with
  | zero => exact hu
  | succ k ih =>
    rw [Function.iterate_succ_apply']
    exact hin _ ih

/-! ### A fuel of `n` suffices on a well-formed parent vector -/

theorem reachesIn_n {n : Nat} {p : Nat → Nat} (hin : ∀ v, v < n → p v < n)
    {u : Nat} (hu : u < n) (hex : ∃ r, RootOf p u r) : ReachesIn p n u := by
  obtain ⟨r, ⟨k, hk⟩, hr⟩ := hex
  have hdec : DecidablePred fun k => p (p^[k] u) = p^[k] u := fun k => inferInstance
  have hex' : ∃ k, p (p^[k] u) = p^[k] u := ⟨k, by rw [hk]; exact hr⟩
  set k₀ := Nat.find hex' with hk₀def
  have hk₀ : p (p^[k₀] u) = p^[k₀] u := Nat.find_spec hex'
  -- distinct chain nodes: the first `k₀ + 1` iterates are pairwise distinct
  have hinj : Set.InjOn (fun i => p^[i] u) ↑(Finset.range (k₀ + 1)) := by
    intro i hi j hj hij
    simp only [Finset.coe_range, Set.mem_Iio] at hi hj
    dsimp only at hij
    by_contra hne
    -- wlog i < j
    rcases Nat.lt_or_ge i j with hlt | hge
    · have hshift : p^[(k₀ - j) + i] u = p^[k₀] u := by
        have h1 : p^[(k₀ - j) + i] u = p^[k₀ - j] (p^[i] u) :=
          Function.iterate_add_apply p _ _ u
        have h2 : p^[(k₀ - j) + j] u = p^[k₀ - j] (p^[j] u) :=
          Function.iterate_add_apply p _ _ u
        rw [h1, hij, ← h2]
        congr 1
        omega
      have hroot' : p (p^[(k₀ - j) + i] u) = p^[(k₀ - j) + i] u := by
        rw [hshift]; exact hk₀
      have := Nat.find_min hex' (m := (k₀ - j) + i) (by omega)
      exact this hroot'
    · have hlt : j < i := by omega
      have hshift : p^[(k₀ - i) + j] u = p^[k₀] u := by
        have h1 : p^[(k₀ - i) + j] u = p^[k₀ - i] (p^[j] u) :=
          Function.iterate_add_apply p _ _ u
        have h2 : p^[(k₀ - i) + i] u = p^[k₀ - i] (p^[i] u) :=
          Function.iterate_add_apply p _ _ u
        rw [h1, ← hij, ← h2]
        congr 1
        omega
      have hroot' : p (p^[(k₀ - i) + j] u) = p^[(k₀ - i) + j] u := by
        rw [hshift]; exact hk₀
      have := Nat.find_min hex' (m := (k₀ - i) + j) (by omega)
      exact this hroot'
  have hk₀lt : k₀ < n := by
    by_contra hge
    push_neg at hge
    have hmaps : ∀ i ∈ Finset.range (n + 1), p^[i] u ∈ Finset.range n := by
      intro i _
      simp only [Finset.mem_range]
      exact iterate_lt hin hu i
    have hinj' : Set.InjOn (fun i => p^[i] u) ↑(Finset.range (n + 1)) := by
      apply hinj.mono
      intro i hi
      simp only [Finset.coe_range, Set.mem_Iio] at hi ⊢
      omega
    have := Finset.card_le_card_of_injOn _ hmaps hinj'
    simp only [Finset.card_range] at this
    omega
  have : rootFuel p k₀ u = p^[k₀] u := rootFuel_of_iterate rfl hk₀
  have hreach : ReachesIn p k₀ u := by
    unfold ReachesIn
    rw [this]
    exact hk₀
  exact reachesIn_mono p hreach (by omega)

/-! ### Exact characterization of `findAux`: result root and compression -/

theorem findAux_spec (p : Nat → Nat) (f u : Nat) (hr : ReachesIn p f u) :
    (findAux p f u).2 = rootFuel p f u ∧
    (∀ v, p v ≠ v → (∃ k, k < f ∧ p^[k] u = v) →
      (findAux p f u).1 v = rootFuel p f u) ∧
    (∀ v, (p v = v ∨ ∀ k, k < f → p^[k] u ≠ v) →
      (findAux p f u).1 v = p v) := by
  induction f generalizing u with
  | zero =>
    refine ⟨rfl, ?_, ?_⟩
    · intro v _ ⟨k, hk, _⟩
      omega
    · intro v _
      rfl
  | succ f ih =>
    by_cases hpu : p u = u
    · have hfa : findAux p (f + 1) u = (p, u) := by
        simp [findAux, hpu]
      rw [hfa, rootFuel_fix p _ hpu]
      dsimp only
      refine ⟨rfl, ?_, ?_⟩
      · intro v hv ⟨k, _, hk⟩
        rw [Function.iterate_fixed hpu] at hk
        rw [← hk] at hv
        exact absurd hpu hv
      · intro v _
        rfl
    · have hr' : ReachesIn p f (p u) := by
        unfold ReachesIn at hr ⊢
        rwa [rootFuel_succ, if_neg hpu] at hr
      obtain ⟨iha, ihb, ihc⟩ := ih (p u) hr'
      have hroot : rootFuel p (f + 1) u = rootFuel p f (p u) := by
        rw [rootFuel_succ, if_neg hpu]
      have hfa : findAux p (f + 1) u =
          (Function.update (findAux p f (p u)).1 u (findAux p f (p u)).2,
            (findAux p f (p u)).2) := by
        simp only [findAux, if_neg hpu]
      rw [hfa]
      dsimp only
      refine ⟨by simp [iha, hroot], ?_, ?_⟩
      · intro v hv ⟨k, hklt, hk⟩
        by_cases hvu : v = u
        · subst hvu
          simp [Function.update_same, iha, hroot]
        · rw [Function.update_noteq hvu]
          rw [hroot]
          apply ihb v hv
          cases k with
          | zero => exact absurd hk.symm hvu
          | succ k =>
            exact ⟨k, by omega, by rw [← Function.iterate_succ_apply]; exact hk⟩
      · intro v hv
        have hvu : v ≠ u := by
          rcases hv with hv | hv
          · intro he
            rw [he] at hv
            exact hpu hv
          · intro he
            exact hv 0 (by omega) he.symm
        rw [Function.update_noteq hvu]
        apply ihc v
        rcases hv with hv | hv
        · exact Or.inl hv
        · refine Or.inr fun k hk he => ?_
          exact hv (k + 1) (by omega) (by rw [Function.iterate_succ_apply]; exact he)

/-! ### Root preservation under compression-style updates and under linking -/

/-- A "shortcut" update of a parent vector: every entry is either unchanged or
relinked from a non-root straight to its own root.  Such an update preserves
the root of every element. -/
theorem rootOf_shortcut {p q : Nat → Nat}
    (HQ : ∀ v, q v = p v ∨ (p v ≠ v ∧ RootOf p v (q v))) :
    ∀ {u r : Nat}, RootOf p u r → RootOf q u r := by
  have hroot_stable : ∀ w, p w = w → q w = w := fun w hw => by
    rcases HQ w with h | ⟨hne, _⟩
    · rw [h, hw]
    · exact absurd hw hne
  intro u r h
  obtain ⟨⟨k, hk⟩, hr⟩ := h
  induction k generalizing u with
  | zero =>
    simp only [Function.iterate_zero_apply] at hk
    subst hk
    exact rootOf_self (hroot_stable u hr)
  | succ k ih =>
    by_cases hpu : p u = u
    · rw [Function.iterate_fixed hpu] at hk
      subst hk
      exact rootOf_self (hroot_stable u hr)
    · rcases HQ u with hq | ⟨_, hqr⟩
      · have : RootOf q (p u) r :=
          ih (by rw [← Function.iterate_succ_apply]; exact hk)
        rw [← hq] at this
        exact rootOf_step this
      · have h1 : RootOf p u r := ⟨⟨k + 1, hk⟩, hr⟩
        have h2 : q u = r := rootOf_unique hqr h1
        exact ⟨⟨1, by simp [h2]⟩, hroot_stable r hr⟩

/-- Linking one root under another (`parent[r1] = r2` for distinct roots `r1`,
`r2`): every element whose root was `r1` now has root `r2`; all other
elements keep their root. -/
theorem rootOf_link {p : Nat → Nat} {r1 r2 : Nat}
    (hr1 : p r1 = r1) (hr2 : p r2 = r2) (hne : r1 ≠ r2) :
    ∀ {u r : Nat}, RootOf p u r →
      RootOf (Function.update p r1 r2) u (if r = r1 then r2 else r) := by
  intro u r h
  have hq2 : Function.update p r1 r2 r2 = r2 := by
    rw [Function.update_noteq (Ne.symm hne), hr2]
  obtain ⟨⟨k, hk⟩, hr⟩ := h
  induction k generalizing u with
  | zero =>
    simp only [Function.iterate_zero_apply] at hk
    subst hk
    by_cases hur : u = r1
    · subst hur
      rw [if_pos rfl]
      exact ⟨⟨1, by simp [Function.update_same]⟩, hq2⟩
    · rw [if_neg hur]
      refine rootOf_self ?_
      rw [Function.update_noteq hur, hr]
  | succ k ih =>
    by_cases hpu : p u = u
    · rw [Function.iterate_fixed hpu] at hk
      subst hk
      by_cases hur : u = r1
      · subst hur
        rw [if_pos rfl]
        exact ⟨⟨1, by simp [Function.update_same]⟩, hq2⟩
      · rw [if_neg hur]
        refine rootOf_self ?_
        rw [Function.update_noteq hur, hpu]
    · have hur : u ≠ r1 := fun he => by
        rw [he, hr1] at hpu
        exact hpu rfl
      have : RootOf (Function.update p r1 r2) (p u) (if r = r1 then r2 else r) :=
        ih (by rw [← Function.iterate_succ_apply]; exact hk)
      have hstep : Function.update p r1 r2 u = p u := Function.update_noteq hur _ _
      rw [← hstep] at this
      exact rootOf_step this

/-- Well-formedness of a whole Union-Find state. -/
def UF.WF (s : UF) : Prop := WFp s.n s.parent

theorem UF.rootOf_rootD {s : UF} (hwf : s.WF) {u : Nat} (hu : u < s.n) :
    RootOf s.parent u (s.rootD u) := by
  have hreach : ReachesIn s.parent s.n u :=
    reachesIn_n hwf.inRange hu (hwf.hasRoot u hu)
  exact rootOf_of_reachesIn hreach

theorem UF.rootD_eq_of_rootOf {s : UF} (hwf : s.WF) {u r : Nat}
    (hu : u < s.n) (h : RootOf s.parent u r) : s.rootD u = r :=
  rootOf_unique (s.rootOf_rootD hwf hu) h

theorem UF.rootD_lt {s : UF} (hwf : s.WF) {u : Nat} (hu : u < s.n) :
    s.rootD u < s.n := by
  obtain ⟨⟨k, hk⟩, _⟩ := s.rootOf_rootD hwf hu
  rw [← hk]
  exact iterate_lt hwf.inRange hu k

theorem UF.rootD_isRoot {s : UF} (hwf : s.WF) {u : Nat} (hu : u < s.n) :
    s.parent (s.rootD u) = s.rootD u :=
  (s.rootOf_rootD hwf hu).2

/-- The parent vector produced by `find` is a shortcut update of the old one:
every entry is unchanged or relinked from a non-root to its own root. -/
theorem find_HQ {s : UF} (hwf : s.WF) {u : Nat} (hu : u < s.n) :
    ∀ v, (s.find u).1.parent v = s.parent v ∨
      (s.parent v ≠ v ∧ RootOf s.parent v ((s.find u).1.parent v)) := by
  intro v
  have hreach : ReachesIn s.parent s.n u :=
    reachesIn_n hwf.inRange hu (hwf.hasRoot u hu)
  obtain ⟨_, hb, hc⟩ := findAux_spec s.parent s.n u hreach
  by_cases hpv : s.parent v = v
  · exact Or.inl (hc v (Or.inl hpv))
  · by_cases hchain : ∃ k, k < s.n ∧ s.parent^[k] u = v
    · obtain ⟨k, hklt, hk⟩ := hchain
      refine Or.inr ⟨hpv, ?_⟩
      have hq : (s.find u).1.parent v = rootFuel s.parent s.n u :=
        hb v hpv ⟨k, hklt, hk⟩
      rw [hq]
      have := rootOf_iterate (rootOf_of_reachesIn hreach) k
      rw [hk] at this
      exact this
    · push_neg at hchain
      exact Or.inl (hc v (Or.inr hchain))

theorem find_preserves_rootOf {s : UF} (hwf : s.WF) {u : Nat} (hu : u < s.n) :
    ∀ {x r : Nat}, RootOf s.parent x r → RootOf (s.find u).1.parent x r :=
  fun h => rootOf_shortcut (find_HQ hwf hu) h

theorem find_n (s : UF) (u : Nat) : (s.find u).1.n = s.n := rfl

theorem find_rank (s : UF) (u : Nat) : (s.find u).1.rank = s.rank := rfl

theorem find_components (s : UF) (u : Nat) :
    (s.find u).1.components = s.components := rfl

theorem find_WF {s : UF} (hwf : s.WF) {u : Nat} (hu : u < s.n) :
    (s.find u).1.WF := by
  refine ⟨?_, ?_, ?_⟩
  · intro v hv
    rcases find_HQ hwf hu v with h | ⟨_, ⟨⟨k, hk⟩, _⟩⟩
    · rw [find_n] at hv
      rw [h]
      exact hwf.inRange v hv
    · rw [find_n] at hv
      rw [← hk]
      exact iterate_lt hwf.inRange hv k
  · intro v hv
    rw [find_n] at hv
    rcases find_HQ hwf hu v with h | ⟨hne, _⟩
    · rw [h]
      exact hwf.fixOutside v hv
    · exact absurd (hwf.fixOutside v hv) hne
  · intro v hv
    rw [find_n] at hv
    obtain ⟨r, hr⟩ := hwf.hasRoot v hv
    exact ⟨r, find_preserves_rootOf hwf hu hr⟩

theorem find_val {s : UF} (hwf : s.WF) {u : Nat} (hu : u < s.n) :
    (s.find u).2 = s.rootD u := by
  have hreach : ReachesIn s.parent s.n u :=
    reachesIn_n hwf.inRange hu (hwf.hasRoot u hu)
  exact (findAux_spec s.parent s.n u hreach).1

/-- After `find`, the root of every element is what it was before. -/
theorem find_rootD {s : UF} (hwf : s.WF) {u : Nat} (hu : u < s.n)
    {x : Nat} (hx : x < s.n) : (s.find u).1.rootD x = s.rootD x := by
  refine UF.rootD_eq_of_rootOf (find_WF hwf hu) ?_ ?_
  · rw [find_n]; exact hx
  · exact find_preserves_rootOf hwf hu (s.rootOf_rootD hwf hx)

/-! ### The common prefix of all union operations: two `find` calls -/

theorem find2_WF {s : UF} (hwf : s.WF) {u v : Nat} (hu : u < s.n)
    (hv : v < s.n) : ((s.find u).1.find v).1.WF :=
  find_WF (find_WF hwf hu) (by rw [find_n]; exact hv)

theorem find2_n (s : UF) (u v : Nat) : ((s.find u).1.find v).1.n = s.n := rfl

theorem find2_rank (s : UF) (u v : Nat) :
    ((s.find u).1.find v).1.rank = s.rank := rfl

theorem find2_components (s : UF) (u v : Nat) :
    ((s.find u).1.find v).1.components = s.components := rfl

theorem find2_preserves_rootOf {s : UF} (hwf : s.WF) {u v : Nat}
    (hu : u < s.n) (hv : v < s.n) {x r : Nat} (h : RootOf s.parent x r) :
    RootOf ((s.find u).1.find v).1.parent x r :=
  find_preserves_rootOf (find_WF hwf hu) (by rw [find_n]; exact hv)
    (find_preserves_rootOf hwf hu h)

theorem find2_rootD {s : UF} (hwf : s.WF) {u v : Nat} (hu : u < s.n)
    (hv : v < s.n) {x : Nat} (hx : x < s.n) :
    ((s.find u).1.find v).1.rootD x = s.rootD x := by
  refine UF.rootD_eq_of_rootOf (find2_WF hwf hu hv) hx ?_
  exact find2_preserves_rootOf hwf hu hv (s.rootOf_rootD hwf hx)

theorem find2_val1 {s : UF} (hwf : s.WF) {u : Nat} (hu : u < s.n) :
    (s.find u).2 = s.rootD u := find_val hwf hu

theorem find2_val2 {s : UF} (hwf : s.WF) {u v : Nat} (hu : u < s.n)
    (hv : v < s.n) : ((s.find u).1.find v).2 = s.rootD v := by
  have h1 : ((s.find u).1.find v).2 = (s.find u).1.rootD v :=
    find_val (find_WF hwf hu) (by rw [find_n]; exact hv)
  rw [h1]
  exact find_rootD hwf hu hv

theorem find2_parent_root {s : UF} (hwf : s.WF) {u v : Nat} (hu : u < s.n)
    (hv : v < s.n) {x : Nat} (hx : x < s.n) :
    ((s.find u).1.find v).1.parent (s.rootD x) = s.rootD x := by
  have h : RootOf s.parent (s.rootD x) (s.rootD x) :=
    rootOf_self (s.rootD_isRoot hwf hx)
  exact (find2_preserves_rootOf hwf hu hv h).2

/-! ### Linking two roots at the state level -/

theorem link_WFp {n : Nat} {p : Nat → Nat} (hwf : WFp n p) {r1 r2 : Nat}
    (hr1 : p r1 = r1) (hr2 : p r2 = r2) (hne : r1 ≠ r2) (h1 : r1 < n)
    (h2 : r2 < n) : WFp n (Function.update p r1 r2) := by
  refine ⟨?_, ?_, ?_⟩
  · intro w hw
    by_cases hwr : w = r1
    · subst hwr
      rw [Function.update_same]
      exact h2
    · rw [Function.update_noteq hwr]
      exact hwf.inRange w hw
  · intro w hw
    have hwr : w ≠ r1 := by omega
    rw [Function.update_noteq hwr]
    exact hwf.fixOutside w hw
  · intro w hw
    obtain ⟨r, hr⟩ := hwf.hasRoot w hw
    exact ⟨if r = r1 then r2 else r, rootOf_link hr1 hr2 hne hr⟩

/-! ### Shape of each operation, by case -/

theorem unite_eq_same {s : UF} (hwf : s.WF) {x y : Nat} (hx : x < s.n)
    (hy : y < s.n) (hsame : s.rootD x = s.rootD y) :
    s.unite x y = (((s.find x).1.find y).1, false) := by
  have h1 : (s.find x).2 = s.rootD x := find_val hwf hx
  have h2 : ((s.find x).1.find y).2 = s.rootD y := find2_val2 hwf hx hy
  unfold UF.unite
  dsimp only
  rw [if_pos (by rw [h1, h2]; exact hsame)]

theorem unite_eq_lt {s : UF} (hwf : s.WF) {x y : Nat} (hx : x < s.n)
    (hy : y < s.n) (hdiff : s.rootD x ≠ s.rootD y)
    (hlt : s.rank (s.rootD x) < s.rank (s.rootD y)) :
    s.unite x y =
      ({ ((s.find x).1.find y).1 with
          parent := Function.update ((s.find x).1.find y).1.parent
            (s.rootD x) (s.rootD y),
          components := s.components - 1 }, true) := by
  have h1 : (s.find x).2 = s.rootD x := find_val hwf hx
  have h2 : ((s.find x).1.find y).2 = s.rootD y := find2_val2 hwf hx hy
  simp only [UF.unite, h1, h2, find2_rank, find2_components]
  rw [if_neg hdiff, if_pos hlt]

theorem unite_eq_gt {s : UF} (hwf : s.WF) {x y : Nat} (hx : x < s.n)
    (hy : y < s.n) (hdiff : s.rootD x ≠ s.rootD y)
    (hgt : s.rank (s.rootD y) < s.rank (s.rootD x)) :
    s.unite x y =
      ({ ((s.find x).1.find y).1 with
          parent := Function.update ((s.find x).1.find y).1.parent
            (s.rootD y) (s.rootD x),
          components := s.components - 1 }, true) := by
  have h1 : (s.find x).2 = s.rootD x := find_val hwf hx
  have h2 : ((s.find x).1.find y).2 = s.rootD y := find2_val2 hwf hx hy
  simp only [UF.unite, h1, h2, find2_rank, find2_components]
  rw [if_neg hdiff, if_neg (by omega : ¬ s.rank (s.rootD x) < s.rank (s.rootD y)), if_pos hgt]

theorem unite_eq_eq {s : UF} (hwf : s.WF) {x y : Nat} (hx : x < s.n)
    (hy : y < s.n) (hdiff : s.rootD x ≠ s.rootD y)
    (heq : s.rank (s.rootD x) = s.rank (s.rootD y)) :
    s.unite x y =
      ({ ((s.find x).1.find y).1 with
          parent := Function.update ((s.find x).1.find y).1.parent
            (s.rootD y) (s.rootD x),
          rank := Function.update s.rank (s.rootD x) (s.rank (s.rootD x) + 1),
          components := s.components - 1 }, true) := by
  have h1 : (s.find x).2 = s.rootD x := find_val hwf hx
  have h2 : ((s.find x).1.find y).2 = s.rootD y := find2_val2 hwf hx hy
  simp only [UF.unite, h1, h2, find2_rank, find2_components]
  rw [if_neg hdiff, if_neg (by omega : ¬ s.rank (s.rootD x) < s.rank (s.rootD y)),
    if_neg (by omega : ¬ s.rank (s.rootD y) < s.rank (s.rootD x))]

theorem unionSets_eq_same {s : UF} (hwf : s.WF) {u v : Nat} (hu : u < s.n)
    (hv : v < s.n) (hsame : s.rootD u = s.rootD v) :
    s.unionSets u v = ((s.find u).1.find v).1 := by
  have h1 : (s.find u).2 = s.rootD u := find_val hwf hu
  have h2 : ((s.find u).1.find v).2 = s.rootD v := find2_val2 hwf hu hv
  simp only [UF.unionSets, h1, h2]
  rw [if_pos hsame]

theorem unionSets_eq_lt {s : UF} (hwf : s.WF) {u v : Nat} (hu : u < s.n)
    (hv : v < s.n) (hdiff : s.rootD u ≠ s.rootD v)
    (hlt : s.rank (s.rootD u) < s.rank (s.rootD v)) :
    s.unionSets u v =
      { ((s.find u).1.find v).1 with
          parent := Function.update ((s.find u).1.find v).1.parent
            (s.rootD u) (s.rootD v) } := by
  have h1 : (s.find u).2 = s.rootD u := find_val hwf hu
  have h2 : ((s.find u).1.find v).2 = s.rootD v := find2_val2 hwf hu hv
  simp only [UF.unionSets, h1, h2, find2_rank]
  rw [if_neg hdiff, if_pos hlt]

theorem unionSets_eq_gt {s : UF} (hwf : s.WF) {u v : Nat} (hu : u < s.n)
    (hv : v < s.n) (hdiff : s.rootD u ≠ s.rootD v)
    (hgt : s.rank (s.rootD v) < s.rank (s.rootD u)) :
    s.unionSets u v =
      { ((s.find u).1.find v).1 with
          parent := Function.update ((s.find u).1.find v).1.parent
            (s.rootD v) (s.rootD u) } := by
  have h1 : (s.find u).2 = s.rootD u := find_val hwf hu
  have h2 : ((s.find u).1.find v).2 = s.rootD v := find2_val2 hwf hu hv
  simp only [UF.unionSets, h1, h2, find2_rank]
  rw [if_neg hdiff, if_neg (by omega : ¬ s.rank (s.rootD u) < s.rank (s.rootD v)),
    if_pos hgt]

theorem unionSets_eq_eq {s : UF} (hwf : s.WF) {u v : Nat} (hu : u < s.n)
    (hv : v < s.n) (hdiff : s.rootD u ≠ s.rootD v)
    (heq : s.rank (s.rootD u) = s.rank (s.rootD v)) :
    s.unionSets u v =
      { ((s.find u).1.find v).1 with
          parent := Function.update ((s.find u).1.find v).1.parent
            (s.rootD v) (s.rootD u),
          rank := Function.update s.rank (s.rootD u) (s.rank (s.rootD u) + 1) } := by
  have h1 : (s.find u).2 = s.rootD u := find_val hwf hu
  have h2 : ((s.find u).1.find v).2 = s.rootD v := find2_val2 hwf hu hv
  simp only [UF.unionSets, h1, h2, find2_rank]
  rw [if_neg hdiff, if_neg (by omega : ¬ s.rank (s.rootD u) < s.rank (s.rootD v)),
    if_neg (by omega : ¬ s.rank (s.rootD v) < s.rank (s.rootD u))]

theorem unionSets3_true (s : UF) (u v : Nat) :
    s.unionSets3 u v true = s.unionSets u v := rfl

theorem unionSets3_false_eq_same {s : UF} (hwf : s.WF) {u v : Nat}
    (hu : u < s.n) (hv : v < s.n) (hsame : s.rootD u = s.rootD v) :
    s.unionSets3 u v false = ((s.find u).1.find v).1 := by
  have h1 : (s.find u).2 = s.rootD u := find_val hwf hu
  have h2 : ((s.find u).1.find v).2 = s.rootD v := find2_val2 hwf hu hv
  simp only [UF.unionSets3, h1, h2, Bool.false_eq_true, if_false]
  rw [if_pos hsame]

theorem unionSets3_false_eq_diff {s : UF} (hwf : s.WF) {u v : Nat}
    (hu : u < s.n) (hv : v < s.n) (hdiff : s.rootD u ≠ s.rootD v) :
    s.unionSets3 u v false =
      { ((s.find u).1.find v).1 with
          parent := Function.update ((s.find u).1.find v).1.parent
            (s.rootD v) (s.rootD u) } := by
  have h1 : (s.find u).2 = s.rootD u := find_val hwf hu
  have h2 : ((s.find u).1.find v).2 = s.rootD v := find2_val2 hwf hu hv
  simp only [UF.unionSets3, h1, h2, Bool.false_eq_true, if_false]
  rw [if_neg hdiff]

theorem unionBySize_eq_same {s : UF} (hwf : s.WF) {u v : Nat}
    (hu : u < s.n) (hv : v < s.n) (size : Nat → Nat)
    (hsame : s.rootD u = s.rootD v) :
    s.unionBySize u v size = (((s.find u).1.find v).1, size) := by
  have h1 : (s.find u).2 = s.rootD u := find_val hwf hu
  have h2 : ((s.find u).1.find v).2 = s.rootD v := find2_val2 hwf hu hv
  simp only [UF.unionBySize, h1, h2]
  rw [if_pos hsame]

theorem unionBySize_eq_lt {s : UF} (hwf : s.WF) {u v : Nat}
    (hu : u < s.n) (hv : v < s.n) (size : Nat → Nat)
    (hdiff : s.rootD u ≠ s.rootD v)
    (hlt : size (s.rootD u) < size (s.rootD v)) :
    s.unionBySize u v size =
      ({ ((s.find u).1.find v).1 with
          parent := Function.update ((s.find u).1.find v).1.parent
            (s.rootD u) (s.rootD v) },
        Function.update size (s.rootD v) (size (s.rootD v) + size (s.rootD u))) := by
  have h1 : (s.find u).2 = s.rootD u := find_val hwf hu
  have h2 : ((s.find u).1.find v).2 = s.rootD v := find2_val2 hwf hu hv
  simp only [UF.unionBySize, h1, h2]
  rw [if_neg hdiff, if_pos hlt]

theorem unionBySize_eq_ge {s : UF} (hwf : s.WF) {u v : Nat}
    (hu : u < s.n) (hv : v < s.n) (size : Nat → Nat)
    (hdiff : s.rootD u ≠ s.rootD v)
    (hge : ¬ size (s.rootD u) < size (s.rootD v)) :
    s.unionBySize u v size =
      ({ ((s.find u).1.find v).1 with
          parent := Function.update ((s.find u).1.find v).1.parent
            (s.rootD v) (s.rootD u) },
        Function.update size (s.rootD u) (size (s.rootD u) + size (s.rootD v))) := by
  have h1 : (s.find u).2 = s.rootD u := find_val hwf hu
  have h2 : ((s.find u).1.find v).2 = s.rootD v := find2_val2 hwf hu hv
  simp only [UF.unionBySize, h1, h2]
  rw [if_neg hdiff, if_neg hge]

theorem connected_eq (s : UF) (u v : Nat) :
    s.connected u v = (((s.find u).1.find v).1,
      decide ((s.find u).2 = ((s.find u).1.find v).2)) := rfl

theorem connected_val {s : UF} (hwf : s.WF) {u v : Nat} (hu : u < s.n)
    (hv : v < s.n) :
    (s.connected u v).2 = decide (s.rootD u = s.rootD v) := by
  have h1 : (s.find u).2 = s.rootD u := find_val hwf hu
  have h2 : ((s.find u).1.find v).2 = s.rootD v := find2_val2 hwf hu hv
  rw [connected_eq]
  dsimp only
  rw [h1, h2]

theorem connected_true_iff {s : UF} (hwf : s.WF) {u v : Nat} (hu : u < s.n)
    (hv : v < s.n) :
    (s.connected u v).2 = true ↔ s.rootD u = s.rootD v := by
  rw [connected_val hwf hu hv]
  exact decide_eq_true_iff

/-! ### Well-formedness and root mapping of a linked state -/

theorem UF.link_WF {s t : UF} (hwf : s.WF) {r1 r2 : Nat}
    (hr1 : s.parent r1 = r1) (hr2 : s.parent r2 = r2) (hne : r1 ≠ r2)
    (h1 : r1 < s.n) (h2 : r2 < s.n) (ht : t.n = s.n)
    (htp : t.parent = Function.update s.parent r1 r2) : t.WF := by
  unfold UF.WF
  rw [ht, htp]
  exact link_WFp hwf hr1 hr2 hne h1 h2

theorem UF.link_rootD {s t : UF} (hwf : s.WF) {r1 r2 : Nat}
    (hr1 : s.parent r1 = r1) (hr2 : s.parent r2 = r2) (hne : r1 ≠ r2)
    (h1 : r1 < s.n) (h2 : r2 < s.n) (ht : t.n = s.n)
    (htp : t.parent = Function.update s.parent r1 r2) {x : Nat}
    (hx : x < s.n) :
    t.rootD x = if s.rootD x = r1 then r2 else s.rootD x := by
  have hwt : t.WF := UF.link_WF hwf hr1 hr2 hne h1 h2 ht htp
  refine UF.rootD_eq_of_rootOf hwt (by rw [ht]; exact hx) ?_
  rw [htp]
  exact rootOf_link hr1 hr2 hne (s.rootOf_rootD hwf hx)

/-! ### Uniform description of the merging branch of `unite` -/

theorem unite_diff_shape {s : UF} (hwf : s.WF) {x y : Nat} (hx : x < s.n)
    (hy : y < s.n) (hdiff : s.rootD x ≠ s.rootD y) :
    ∃ w l R, ((w = s.rootD x ∧ l = s.rootD y) ∨ (w = s.rootD y ∧ l = s.rootD x)) ∧
      s.unite x y =
        ({ ((s.find x).1.find y).1 with
            parent := Function.update ((s.find x).1.find y).1.parent l w,
            rank := R,
            components := s.components - 1 }, true) := by
  rcases Nat.lt_trichotomy (s.rank (s.rootD x)) (s.rank (s.rootD y)) with hlt | heq | hgt
  · exact ⟨s.rootD y, s.rootD x, s.rank, Or.inr ⟨rfl, rfl⟩,
      unite_eq_lt hwf hx hy hdiff hlt⟩
  · exact ⟨s.rootD x, s.rootD y,
      Function.update s.rank (s.rootD x) (s.rank (s.rootD x) + 1),
      Or.inl ⟨rfl, rfl⟩, unite_eq_eq hwf hx hy hdiff heq⟩
  · exact ⟨s.rootD x, s.rootD y, s.rank, Or.inl ⟨rfl, rfl⟩,
      unite_eq_gt hwf hx hy hdiff hgt⟩

theorem unite_WF {s : UF} (hwf : s.WF) {x y : Nat} (hx : x < s.n)
    (hy : y < s.n) : (s.unite x y).1.WF := by
  by_cases hsame : s.rootD x = s.rootD y
  · rw [unite_eq_same hwf hx hy hsame]
    exact find2_WF hwf hx hy
  · obtain ⟨w, l, R, hwl, heq⟩ := unite_diff_shape hwf hx hy hsame
    rw [heq]
    have h2wf : ((s.find x).1.find y).1.WF := find2_WF hwf hx hy
    have hlr : l ≠ w := by
      rcases hwl with ⟨hw, hl⟩ | ⟨hw, hl⟩ <;> subst hw <;> subst hl
      · exact Ne.symm hsame
      · exact hsame
    have hlroot : ((s.find x).1.find y).1.parent l = l := by
      rcases hwl with ⟨_, hl⟩ | ⟨_, hl⟩ <;> subst hl
      · exact find2_parent_root hwf hx hy hy
      · exact find2_parent_root hwf hx hy hx
    have hwroot : ((s.find x).1.find y).1.parent w = w := by
      rcases hwl with ⟨hw, _⟩ | ⟨hw, _⟩ <;> subst hw
      · exact find2_parent_root hwf hx hy hx
      · exact find2_parent_root hwf hx hy hy
    have hlltn : l < s.n := by
      rcases hwl with ⟨_, hl⟩ | ⟨_, hl⟩ <;> subst hl
      · exact s.rootD_lt hwf hy
      · exact s.rootD_lt hwf hx
    have hwltn : w < s.n := by
      rcases hwl with ⟨hw, _⟩ | ⟨hw, _⟩ <;> subst hw
      · exact s.rootD_lt hwf hx
      · exact s.rootD_lt hwf hy
    exact UF.link_WF h2wf hlroot hwroot hlr hlltn hwltn rfl rfl

theorem unite_rootD_diff {s : UF} (hwf : s.WF) {x y : Nat} (hx : x < s.n)
    (hy : y < s.n) (hdiff : s.rootD x ≠ s.rootD y) :
    ∃ w, (w = s.rootD x ∨ w = s.rootD y) ∧
      ∀ a, a < s.n → (s.unite x y).1.rootD a =
        if s.rootD a = s.rootD x ∨ s.rootD a = s.rootD y then w
        else s.rootD a := by
  obtain ⟨w, l, R, hwl, heq⟩ := unite_diff_shape hwf hx hy hdiff
  have h2wf : ((s.find x).1.find y).1.WF := find2_WF hwf hx hy
  have hlr : l ≠ w := by
    rcases hwl with ⟨hw, hl⟩ | ⟨hw, hl⟩ <;> subst hw <;> subst hl
    · exact Ne.symm hdiff
    · exact hdiff
  have hlroot : ((s.find x).1.find y).1.parent l = l := by
    rcases hwl with ⟨_, hl⟩ | ⟨_, hl⟩ <;> subst hl
    · exact find2_parent_root hwf hx hy hy
    · exact find2_parent_root hwf hx hy hx
  have hwroot : ((s.find x).1.find y).1.parent w = w := by
    rcases hwl with ⟨hw, _⟩ | ⟨hw, _⟩ <;> subst hw
    · exact find2_parent_root hwf hx hy hx
    · exact find2_parent_root hwf hx hy hy
  have hlltn : l < s.n := by
    rcases hwl with ⟨_, hl⟩ | ⟨_, hl⟩ <;> subst hl
    · exact s.rootD_lt hwf hy
    · exact s.rootD_lt hwf hx
  have hwltn : w < s.n := by
    rcases hwl with ⟨hw, _⟩ | ⟨hw, _⟩ <;> subst hw
    · exact s.rootD_lt hwf hx
    · exact s.rootD_lt hwf hy
  refine ⟨w, by tauto, fun a ha => ?_⟩
  have hroot2 : ∀ b, b < s.n → ((s.find x).1.find y).1.rootD b = s.rootD b :=
    fun b hb => find2_rootD hwf hx hy hb
  have hmap := UF.link_rootD h2wf hlroot hwroot hlr hlltn hwltn
    (t := ({ ((s.find x).1.find y).1 with
          parent := Function.update ((s.find x).1.find y).1.parent l w,
          rank := R,
          components := s.components - 1 })) rfl rfl (x := a) ha
  rw [heq]
  rw [hmap, hroot2 a ha]
  by_cases hal : s.rootD a = l
  · rw [if_pos hal, if_pos (by rcases hwl with ⟨_, hl⟩ | ⟨_, hl⟩ <;> subst hl <;> tauto)]
  · rw [if_neg hal]
    by_cases haw : s.rootD a = w
    · rw [if_pos (by rcases hwl with ⟨hw, _⟩ | ⟨hw, _⟩ <;> subst hw <;> tauto), haw]
    · rw [if_neg (by rcases hwl with ⟨hw, hl⟩ | ⟨hw, hl⟩ <;> subst hw <;> subst hl <;> tauto)]

/-- Any state whose parent vector links one of the two discovered roots under
the other (after the two `find` calls) is well formed, and its root map sends
both merged classes to the surviving root and leaves every other class
alone. -/
theorem find2_link_spec {s : UF} (hwf : s.WF) {x y : Nat} (hx : x < s.n)
    (hy : y < s.n) (hdiff : s.rootD x ≠ s.rootD y) {w l : Nat}
    (hwl : (w = s.rootD x ∧ l = s.rootD y) ∨ (w = s.rootD y ∧ l = s.rootD x))
    {t : UF} (ht : t.n = s.n)
    (htp : t.parent = Function.update ((s.find x).1.find y).1.parent l w) :
    t.WF ∧ ∀ a, a < s.n → t.rootD a =
      if s.rootD a = s.rootD x ∨ s.rootD a = s.rootD y then w
      else s.rootD a := by
  have h2wf : ((s.find x).1.find y).1.WF := find2_WF hwf hx hy
  have hlr : l ≠ w := by
    rcases hwl with ⟨hw, hl⟩ | ⟨hw, hl⟩ <;> subst hw <;> subst hl
    · exact Ne.symm hdiff
    · exact hdiff
  have hlroot : ((s.find x).1.find y).1.parent l = l := by
    rcases hwl with ⟨_, hl⟩ | ⟨_, hl⟩ <;> subst hl
    · exact find2_parent_root hwf hx hy hy
    · exact find2_parent_root hwf hx hy hx
  have hwroot : ((s.find x).1.find y).1.parent w = w := by
    rcases hwl with ⟨hw, _⟩ | ⟨hw, _⟩ <;> subst hw
    · exact find2_parent_root hwf hx hy hx
    · exact find2_parent_root hwf hx hy hy
  have hlltn : l < s.n := by
    rcases hwl with ⟨_, hl⟩ | ⟨_, hl⟩ <;> subst hl
    · exact s.rootD_lt hwf hy
    · exact s.rootD_lt hwf hx
  have hwltn : w < s.n := by
    rcases hwl with ⟨hw, _⟩ | ⟨hw, _⟩ <;> subst hw
    · exact s.rootD_lt hwf hx
    · exact s.rootD_lt hwf hy
  have hwt : t.WF := UF.link_WF h2wf hlroot hwroot hlr hlltn hwltn ht htp
  refine ⟨hwt, fun a ha => ?_⟩
  have hmap := UF.link_rootD h2wf hlroot hwroot hlr hlltn hwltn ht htp
    (x := a) ha
  rw [hmap, find2_rootD hwf hx hy ha]
  by_cases hal : s.rootD a = l
  · rw [if_pos hal, if_pos (by rcases hwl with ⟨_, hl⟩ | ⟨_, hl⟩ <;> subst hl <;> tauto)]
  · rw [if_neg hal]
    by_cases haw : s.rootD a = w
    · rw [if_pos (by rcases hwl with ⟨hw, _⟩ | ⟨hw, _⟩ <;> subst hw <;> tauto), haw]
    · rw [if_neg (by rcases hwl with ⟨hw, hl⟩ | ⟨hw, hl⟩ <;> subst hw <;> subst hl <;> tauto)]

/-! ### Well-formedness and root mapping of the remaining operations -/

theorem unionSets_spec_merge {s : UF} (hwf : s.WF) {u v : Nat} (hu : u < s.n)
    (hv : v < s.n) (hdiff : s.rootD u ≠ s.rootD v) :
    ∃ w, (w = s.rootD u ∨ w = s.rootD v) ∧ (s.unionSets u v).WF ∧
      ∀ a, a < s.n → (s.unionSets u v).rootD a =
        if s.rootD a = s.rootD u ∨ s.rootD a = s.rootD v then w
        else s.rootD a := by
  rcases Nat.lt_trichotomy (s.rank (s.rootD u)) (s.rank (s.rootD v)) with hlt | heq | hgt
  · refine ⟨s.rootD v, Or.inr rfl, ?_⟩
    have h := find2_link_spec hwf hu hv hdiff (w := s.rootD v) (l := s.rootD u)
      (Or.inr ⟨rfl, rfl⟩) (t := s.unionSets u v)
      (by rw [unionSets_eq_lt hwf hu hv hdiff hlt]; rfl)
      (by rw [unionSets_eq_lt hwf hu hv hdiff hlt])
    exact h
  · refine ⟨s.rootD u, Or.inl rfl, ?_⟩
    have h := find2_link_spec hwf hu hv hdiff (w := s.rootD u) (l := s.rootD v)
      (Or.inl ⟨rfl, rfl⟩) (t := s.unionSets u v)
      (by rw [unionSets_eq_eq hwf hu hv hdiff heq]; rfl)
      (by rw [unionSets_eq_eq hwf hu hv hdiff heq])
    exact h
  · refine ⟨s.rootD u, Or.inl rfl, ?_⟩
    have h := find2_link_spec hwf hu hv hdiff (w := s.rootD u) (l := s.rootD v)
      (Or.inl ⟨rfl, rfl⟩) (t := s.unionSets u v)
      (by rw [unionSets_eq_gt hwf hu hv hdiff hgt]; rfl)
      (by rw [unionSets_eq_gt hwf hu hv hdiff hgt])
    exact h

theorem unionSets_WF {s : UF} (hwf : s.WF) {u v : Nat} (hu : u < s.n)
    (hv : v < s.n) : (s.unionSets u v).WF := by
  by_cases hsame : s.rootD u = s.rootD v
  · rw [unionSets_eq_same hwf hu hv hsame]
    exact find2_WF hwf hu hv
  · obtain ⟨w, _, hWF, _⟩ := unionSets_spec_merge hwf hu hv hsame
    exact hWF

theorem unionSets_n {s : UF} (hwf : s.WF) {u v : Nat} (hu : u < s.n)
    (hv : v < s.n) : (s.unionSets u v).n = s.n := by
  by_cases hsame : s.rootD u = s.rootD v
  · rw [unionSets_eq_same hwf hu hv hsame]; rfl
  · rcases Nat.lt_trichotomy (s.rank (s.rootD u)) (s.rank (s.rootD v)) with hlt | heq | hgt
    · rw [unionSets_eq_lt hwf hu hv hsame hlt]; rfl
    · rw [unionSets_eq_eq hwf hu hv hsame heq]; rfl
    · rw [unionSets_eq_gt hwf hu hv hsame hgt]; rfl

theorem unionSets3_false_spec_merge {s : UF} (hwf : s.WF) {u v : Nat}
    (hu : u < s.n) (hv : v < s.n) (hdiff : s.rootD u ≠ s.rootD v) :
    (s.unionSets3 u v false).WF ∧
      ∀ a, a < s.n → (s.unionSets3 u v false).rootD a =
        if s.rootD a = s.rootD u ∨ s.rootD a = s.rootD v then s.rootD u
        else s.rootD a :=
  find2_link_spec hwf hu hv hdiff (w := s.rootD u) (l := s.rootD v)
    (Or.inl ⟨rfl, rfl⟩) (t := s.unionSets3 u v false)
    (by rw [unionSets3_false_eq_diff hwf hu hv hdiff]; rfl)
    (by rw [unionSets3_false_eq_diff hwf hu hv hdiff])

theorem unionSets3_WF {s : UF} (hwf : s.WF) {u v : Nat} (hu : u < s.n)
    (hv : v < s.n) (byRank : Bool) : (s.unionSets3 u v byRank).WF := by
  cases byRank with
  | true => rw [unionSets3_true]; exact unionSets_WF hwf hu hv
  | false =>
    by_cases hsame : s.rootD u = s.rootD v
    · rw [unionSets3_false_eq_same hwf hu hv hsame]
      exact find2_WF hwf hu hv
    · exact (unionSets3_false_spec_merge hwf hu hv hsame).1

theorem unionSets3_n {s : UF} (hwf : s.WF) {u v : Nat} (hu : u < s.n)
    (hv : v < s.n) (byRank : Bool) : (s.unionSets3 u v byRank).n = s.n := by
  cases byRank with
  | true => rw [unionSets3_true]; exact unionSets_n hwf hu hv
  | false =>
    by_cases hsame : s.rootD u = s.rootD v
    · rw [unionSets3_false_eq_same hwf hu hv hsame]; rfl
    · rw [unionSets3_false_eq_diff hwf hu hv hsame]; rfl

theorem unionBySize_spec_merge {s : UF} (hwf : s.WF) {u v : Nat}
    (hu : u < s.n) (hv : v < s.n) (size : Nat → Nat)
    (hdiff : s.rootD u ≠ s.rootD v) :
    ∃ w, (w = s.rootD u ∨ w = s.rootD v) ∧ (s.unionBySize u v size).1.WF ∧
      ∀ a, a < s.n → (s.unionBySize u v size).1.rootD a =
        if s.rootD a = s.rootD u ∨ s.rootD a = s.rootD v then w
        else s.rootD a := by
  by_cases hlt : size (s.rootD u) < size (s.rootD v)
  · refine ⟨s.rootD v, Or.inr rfl, ?_⟩
    exact find2_link_spec hwf hu hv hdiff (w := s.rootD v) (l := s.rootD u)
      (Or.inr ⟨rfl, rfl⟩) (t := (s.unionBySize u v size).1)
      (by rw [unionBySize_eq_lt hwf hu hv size hdiff hlt]; rfl)
      (by rw [unionBySize_eq_lt hwf hu hv size hdiff hlt])
  · refine ⟨s.rootD u, Or.inl rfl, ?_⟩
    exact find2_link_spec hwf hu hv hdiff (w := s.rootD u) (l := s.rootD v)
      (Or.inl ⟨rfl, rfl⟩) (t := (s.unionBySize u v size).1)
      (by rw [unionBySize_eq_ge hwf hu hv size hdiff hlt]; rfl)
      (by rw [unionBySize_eq_ge hwf hu hv size hdiff hlt])

theorem unionBySize_WF {s : UF} (hwf : s.WF) {u v : Nat} (hu : u < s.n)
    (hv : v < s.n) (size : Nat → Nat) : (s.unionBySize u v size).1.WF := by
  by_cases hsame : s.rootD u = s.rootD v
  · rw [unionBySize_eq_same hwf hu hv size hsame]
    exact find2_WF hwf hu hv
  · exact (unionBySize_spec_merge hwf hu hv size hsame).choose_spec.2.1

theorem unionBySize_n {s : UF} (hwf : s.WF) {u v : Nat} (hu : u < s.n)
    (hv : v < s.n) (size : Nat → Nat) : (s.unionBySize u v size).1.n = s.n := by
  by_cases hsame : s.rootD u = s.rootD v
  · rw [unionBySize_eq_same hwf hu hv size hsame]; rfl
  · by_cases hlt : size (s.rootD u) < size (s.rootD v)
    · rw [unionBySize_eq_lt hwf hu hv size hsame hlt]; rfl
    · rw [unionBySize_eq_ge hwf hu hv size hsame hlt]; rfl

theorem unite_n {s : UF} (hwf : s.WF) {x y : Nat} (hx : x < s.n)
    (hy : y < s.n) : (s.unite x y).1.n = s.n := by
  by_cases hsame : s.rootD x = s.rootD y
  · rw [unite_eq_same hwf hx hy hsame]; rfl
  · obtain ⟨w, l, R, hwl, heq⟩ := unite_diff_shape hwf hx hy hsame
    rw [heq]
    rfl

theorem connected_WF {s : UF} (hwf : s.WF) {u v : Nat} (hu : u < s.n)
    (hv : v < s.n) : (s.connected u v).1.WF := by
  rw [connected_eq]
  exact find2_WF hwf hu hv

theorem connected_n (s : UF) (u v : Nat) : (s.connected u v).1.n = s.n := rfl

theorem connected_rootD {s : UF} (hwf : s.WF) {u v : Nat} (hu : u < s.n)
    (hv : v < s.n) {a : Nat} (ha : a < s.n) :
    (s.connected u v).1.rootD a = s.rootD a := by
  rw [connected_eq]
  exact find2_rootD hwf hu hv ha

theorem construct_WF (n : Nat) : (UF.construct n).WF := by
  refine ⟨fun u hu => hu, fun u _ => rfl, fun u _ => ⟨u, rootOf_self rfl⟩⟩

theorem construct_rootD (n u : Nat) : (UF.construct n).rootD u = u :=
  rootFuel_fix _ _ rfl

theorem construct_components (n : Nat) : (UF.construct n).components = n := rfl

theorem construct_n (n : Nat) : (UF.construct n).n = n := rfl

/-! ### States reachable from the constructor -/

/-- All states obtainable from `UnionFind(n)` by any sequence of `find`,
`unionSets` (both overloads), `unite`, `unionBySize` (with an arbitrary size
vector) and `connected` calls on valid elements. -/
inductive UF.Reachable : UF → Prop where
  | construct (n : Nat) : UF.Reachable (UF.construct n)
  | find {s : UF} (u : Nat) : UF.Reachable s → u < s.n →
      UF.Reachable (s.find u).1
  | unionSets {s : UF} (u v : Nat) : UF.Reachable s → u < s.n → v < s.n →
      UF.Reachable (s.unionSets u v)
  | unionSets3 {s : UF} (u v : Nat) (byRank : Bool) : UF.Reachable s →
      u < s.n → v < s.n → UF.Reachable (s.unionSets3 u v byRank)
  | unite {s : UF} (x y : Nat) : UF.Reachable s → x < s.n → y < s.n →
      UF.Reachable (s.unite x y).1
  | unionBySize {s : UF} (u v : Nat) (size : Nat → Nat) : UF.Reachable s →
      u < s.n → v < s.n → UF.Reachable (s.unionBySize u v size).1
  | connected {s : UF} (u v : Nat) : UF.Reachable s → u < s.n → v < s.n →
      UF.Reachable (s.connected u v).1

theorem reachable_WF {s : UF} (h : UF.Reachable s) : s.WF := by
  induction h with
  | construct n => exact construct_WF n
  | find u _ hu ih => exact find_WF ih hu
  | unionSets u v _ hu hv ih => exact unionSets_WF ih hu hv
  | unionSets3 u v byRank _ hu hv ih => exact unionSets3_WF ih hu hv byRank
  | unite x y _ hx hy ih => exact unite_WF ih hx hy
  | unionBySize u v size _ hu hv ih => exact unionBySize_WF ih hu hv size
  | connected u v _ hu hv ih => exact connected_WF ih hu hv

/-! ### The component counter -/

theorem unite_components (s : UF) (x y : Nat) :
    (s.unite x y).1.components =
      if (s.unite x y).2 then s.components - 1 else s.components := by
  by_cases hc : (s.find x).2 = ((s.find x).1.find y).2
  · simp [UF.unite, hc, find2_components]
  · by_cases hr1 : ((s.find x).1.find y).1.rank ((s.find x).2) <
        ((s.find x).1.find y).1.rank (((s.find x).1.find y).2)
    · simp [UF.unite, hc, hr1, find2_components]
    · by_cases hr2 : ((s.find x).1.find y).1.rank (((s.find x).1.find y).2) <
          ((s.find x).1.find y).1.rank ((s.find x).2)
      · simp [UF.unite, hc, hr1, hr2, find2_components]
      · simp [UF.unite, hc, hr1, hr2, find2_components]

theorem connected_components (s : UF) (u v : Nat) :
    (s.connected u v).1.components = s.components := rfl

/-! ### Derived facts used by the claim theorems -/

theorem unite_val {s : UF} (hwf : s.WF) {x y : Nat} (hx : x < s.n)
    (hy : y < s.n) :
    (s.unite x y).2 = !decide (s.rootD x = s.rootD y) := by
  by_cases hsame : s.rootD x = s.rootD y
  · rw [unite_eq_same hwf hx hy hsame]
    simp [hsame]
  · obtain ⟨w, l, R, hwl, heq⟩ := unite_diff_shape hwf hx hy hsame
    rw [heq]
    simp [hsame]

theorem unite_rootD_same {s : UF} (hwf : s.WF) {x y : Nat} (hx : x < s.n)
    (hy : y < s.n) (hsame : s.rootD x = s.rootD y) {a : Nat} (ha : a < s.n) :
    (s.unite x y).1.rootD a = s.rootD a := by
  rw [unite_eq_same hwf hx hy hsame]
  exact find2_rootD hwf hx hy ha

theorem unite_connects {s : UF} (hwf : s.WF) {x y : Nat} (hx : x < s.n)
    (hy : y < s.n) :
    (s.unite x y).1.rootD x = (s.unite x y).1.rootD y := by
  by_cases hsame : s.rootD x = s.rootD y
  · rw [unite_rootD_same hwf hx hy hsame hx, unite_rootD_same hwf hx hy hsame hy]
    exact hsame
  · obtain ⟨w, _, hmap⟩ := unite_rootD_diff hwf hx hy hsame
    rw [hmap x hx, hmap y hy]
    rw [if_pos (Or.inl rfl), if_pos (Or.inr rfl)]

/-! ### Claim theorems -/

/-- C1: on a well-formed state, `unite` returns `false` exactly when the two
elements already share a root — in which case no merge is performed (every
element keeps its root) and the component counter is untouched — and returns
`true` exactly when a merge occurred; in the cycle-detection scenario with
edges (0,1), (1,2), (2,0) over n = 3, the third `unite` call returns
`false`. -/
theorem unite_merge_flag {s : UF} (hwf : s.WF) {x y : Nat} (hx : x < s.n)
    (hy : y < s.n) :
    ((s.unite x y).2 = false ↔ s.rootD x = s.rootD y) ∧
    (s.rootD x = s.rootD y →
      (s.unite x y).1.components = s.components ∧
      ∀ a, a < s.n → (s.unite x y).1.rootD a = s.rootD a) ∧
    ((s.unite x y).2 = true ↔ s.rootD x ≠ s.rootD y) ∧
    ((((UF.construct 3).unite 0 1).1.unite 1 2).1.unite 2 0).2 = false := by
  refine ⟨?_, ?_, ?_, by decide⟩
  · rw [unite_val hwf hx hy]
    by_cases h : s.rootD x = s.rootD y <;> simp [h]
  · intro hsame
    refine ⟨?_, fun a ha => unite_rootD_same hwf hx hy hsame ha⟩
    rw [unite_components, unite_val hwf hx hy]
    simp [hsame]
  · rw [unite_val hwf hx hy]
    by_cases h : s.rootD x = s.rootD y <;> simp [h]

theorem unite_merge_flag_witness :
    ((((UF.construct 2).unite 0 1).2 = false ↔
        (UF.construct 2).rootD 0 = (UF.construct 2).rootD 1) ∧
      ((UF.construct 2).rootD 0 = (UF.construct 2).rootD 1 →
        ((UF.construct 2).unite 0 1).1.components = (UF.construct 2).components ∧
        ∀ a, a < (UF.construct 2).n →
          ((UF.construct 2).unite 0 1).1.rootD a = (UF.construct 2).rootD a) ∧
      ((((UF.construct 2).unite 0 1).2 = true ↔
        (UF.construct 2).rootD 0 ≠ (UF.construct 2).rootD 1)) ∧
      ((((UF.construct 3).unite 0 1).1.unite 1 2).1.unite 2 0).2 = false) :=
  unite_merge_flag (construct_WF 2) (by decide) (by decide)

/-- C2: the component counter starts at `n` after construction, is
decremented exactly once per successful (merging) `unite` and is never
otherwise changed (`find` and `connected` leave it alone); in the scenario
n = 5 with edges (0,1), (1,2), (3,4) it ends at 2. -/
theorem components_counter :
    (∀ n : Nat, (UF.construct n).getComponents = n) ∧
    (∀ (s : UF) (x y : Nat), (s.unite x y).1.components =
      if (s.unite x y).2 then s.components - 1 else s.components) ∧
    (∀ (s : UF) (u : Nat), (s.find u).1.components = s.components) ∧
    (∀ (s : UF) (u v : Nat), (s.connected u v).1.components = s.components) ∧
    ((((UF.construct 5).unite 0 1).1.unite 1 2).1.unite 3 4).1.getComponents = 2 := by
  exact ⟨fun n => rfl, fun s x y => unite_components s x y, fun s u => rfl,
    fun s u v => rfl, by decide⟩

/-- C3: on a well-formed state, `find x` returns the root of `x`'s set (the
unique representative on `x`'s parent chain that is its own parent), and its
only side effect on the parent vector is to relink every non-root node
visited on the root-ward traversal directly to that root, leaving every
other entry unchanged. -/
theorem find_root_and_compress {s : UF} (hwf : s.WF) {x : Nat} (hx : x < s.n) :
    (s.find x).2 = s.rootD x ∧
    RootOf s.parent x (s.rootD x) ∧
    (∀ r, RootOf s.parent x r → r = s.rootD x) ∧
    (∀ v, s.parent v ≠ v → (∃ k, k < s.n ∧ s.parent^[k] x = v) →
      (s.find x).1.parent v = s.rootD x) ∧
    (∀ v, (s.parent v = v ∨ ∀ k, k < s.n → s.parent^[k] x ≠ v) →
      (s.find x).1.parent v = s.parent v) := by
  have hreach : ReachesIn s.parent s.n x :=
    reachesIn_n hwf.inRange hx (hwf.hasRoot x hx)
  obtain ⟨_, hb, hc⟩ := findAux_spec s.parent s.n x hreach
  exact ⟨find_val hwf hx, s.rootOf_rootD hwf hx,
    fun r hr => rootOf_unique hr (s.rootOf_rootD hwf hx), hb, hc⟩

theorem find_root_and_compress_witness :
    (((UF.construct 2).find 0).2 = (UF.construct 2).rootD 0 ∧
      RootOf (UF.construct 2).parent 0 ((UF.construct 2).rootD 0) ∧
      (∀ r, RootOf (UF.construct 2).parent 0 r → r = (UF.construct 2).rootD 0) ∧
      (∀ v, (UF.construct 2).parent v ≠ v →
        (∃ k, k < (UF.construct 2).n ∧ (UF.construct 2).parent^[k] 0 = v) →
        ((UF.construct 2).find 0).1.parent v = (UF.construct 2).rootD 0) ∧
      (∀ v, ((UF.construct 2).parent v = v ∨
          ∀ k, k < (UF.construct 2).n → (UF.construct 2).parent^[k] 0 ≠ v) →
        ((UF.construct 2).find 0).1.parent v = (UF.construct 2).parent v)) :=
  find_root_and_compress (construct_WF 2) (by decide)

/-- C4: in every state reachable from the constructor by `find`, either
union overload, `unite`, `unionBySize` and `connected` calls on valid
elements, the parent mapping is acyclic — repeated parent-traversal from
every element reaches a root — every element has exactly one root (so the
root classes partition the universe), and two elements are connected
exactly when they share a root. -/
theorem reachable_invariant {s : UF} (h : UF.Reachable s) :
    (∀ x, x < s.n → ∃ k, s.parent (s.parent^[k] x) = s.parent^[k] x) ∧
    (∀ x, x < s.n → RootOf s.parent x (s.rootD x)) ∧
    (∀ x r r', RootOf s.parent x r → RootOf s.parent x r' → r = r') ∧
    (∀ x y, x < s.n → y < s.n →
      ((s.connected x y).2 = true ↔ s.rootD x = s.rootD y)) := by
  have hwf := reachable_WF h
  refine ⟨?_, ?_, ?_, ?_⟩
  · intro x hx
    obtain ⟨⟨k, hk⟩, hr⟩ := s.rootOf_rootD hwf hx
    exact ⟨k, by rw [hk]; exact hr⟩
  · exact fun x hx => s.rootOf_rootD hwf hx
  · exact fun x r r' h1 h2 => rootOf_unique h1 h2
  · exact fun x y hx hy => connected_true_iff hwf hx hy

theorem reachable_invariant_witness :
    UF.Reachable ((UF.construct 2).unionSets 0 1) ∧
    ((∀ x, x < ((UF.construct 2).unionSets 0 1).n →
        ∃ k, ((UF.construct 2).unionSets 0 1).parent
          (((UF.construct 2).unionSets 0 1).parent^[k] x) =
          ((UF.construct 2).unionSets 0 1).parent^[k] x) ∧
      (∀ x, x < ((UF.construct 2).unionSets 0 1).n →
        RootOf ((UF.construct 2).unionSets 0 1).parent x
          (((UF.construct 2).unionSets 0 1).rootD x)) ∧
      (∀ x r r', RootOf ((UF.construct 2).unionSets 0 1).parent x r →
        RootOf ((UF.construct 2).unionSets 0 1).parent x r' → r = r') ∧
      (∀ x y, x < ((UF.construct 2).unionSets 0 1).n →
        y < ((UF.construct 2).unionSets 0 1).n →
        ((((UF.construct 2).unionSets 0 1).connected x y).2 = true ↔
          ((UF.construct 2).unionSets 0 1).rootD x =
            ((UF.construct 2).unionSets 0 1).rootD y))) :=
  have hre : UF.Reachable ((UF.construct 2).unionSets 0 1) :=
    UF.Reachable.unionSets 0 1 (UF.Reachable.construct 2) (by decide) (by decide)
  ⟨hre, reachable_invariant hre⟩

/-- C5: on a well-formed state, `unite x y` followed by `connected x y`
returns `true`, and a second `unite x y` leaves the connectivity relation
(the result of `connected` on every valid pair) exactly as it was after the
first call. -/
theorem union_connected_idempotent {s : UF} (hwf : s.WF) {x y : Nat}
    (hx : x < s.n) (hy : y < s.n) :
    (((s.unite x y).1.connected x y).2 = true) ∧
    (∀ a b, a < s.n → b < s.n →
      (((s.unite x y).1.unite x y).1.connected a b).2 =
        ((s.unite x y).1.connected a b).2) := by
  have hwf1 : (s.unite x y).1.WF := unite_WF hwf hx hy
  have hn1 : (s.unite x y).1.n = s.n := unite_n hwf hx hy
  have hx1 : x < (s.unite x y).1.n := by rw [hn1]; exact hx
  have hy1 : y < (s.unite x y).1.n := by rw [hn1]; exact hy
  have hconn : (s.unite x y).1.rootD x = (s.unite x y).1.rootD y :=
    unite_connects hwf hx hy
  constructor
  · rw [connected_true_iff hwf1 hx1 hy1]
    exact hconn
  · intro a b ha hb
    have ha1 : a < (s.unite x y).1.n := by rw [hn1]; exact ha
    have hb1 : b < (s.unite x y).1.n := by rw [hn1]; exact hb
    have hwf2 : ((s.unite x y).1.unite x y).1.WF := unite_WF hwf1 hx1 hy1
    have hn2 : ((s.unite x y).1.unite x y).1.n = (s.unite x y).1.n :=
      unite_n hwf1 hx1 hy1
    have ha2 : a < ((s.unite x y).1.unite x y).1.n := by rw [hn2]; exact ha1
    have hb2 : b < ((s.unite x y).1.unite x y).1.n := by rw [hn2]; exact hb1
    rw [connected_val hwf2 ha2 hb2, connected_val hwf1 ha1 hb1,
      unite_rootD_same hwf1 hx1 hy1 hconn ha1,
      unite_rootD_same hwf1 hx1 hy1 hconn hb1]

theorem union_connected_idempotent_witness :
    ((((UF.construct 2).unite 0 1).1.connected 0 1).2 = true) ∧
    (∀ a b, a < (UF.construct 2).n → b < (UF.construct 2).n →
      (((((UF.construct 2).unite 0 1).1.unite 0 1).1.connected a b).2 =
        (((UF.construct 2).unite 0 1).1.connected a b).2)) :=
  union_connected_idempotent (construct_WF 2) (by decide) (by decide)

/-- Single-step stability: a `find` on any element changes no element's root
(so a subsequent `find x` still returns `x`'s old root), and a `unite` whose
two arguments both lie outside `x`'s set leaves `x`'s root unchanged. -/
theorem find_stable {s : UF} (hwf : s.WF) {x : Nat} (hx : x < s.n) :
    (∀ y, y < s.n → ((s.find y).1.rootD x = s.rootD x ∧
      ((s.find y).1.find x).2 = s.rootD x)) ∧
    (∀ u v, u < s.n → v < s.n → s.rootD u ≠ s.rootD x →
      s.rootD v ≠ s.rootD x → (s.unite u v).1.rootD x = s.rootD x) := by
  constructor
  · intro y hy
    have h1 := find_rootD hwf hy hx
    refine ⟨h1, ?_⟩
    have hwfy := find_WF hwf hy
    have hxy : x < (s.find y).1.n := by rw [find_n]; exact hx
    rw [find_val hwfy hxy, h1]
  · intro u v hu hv hux hvx
    by_cases hsame : s.rootD u = s.rootD v
    · exact unite_rootD_same hwf hu hv hsame hx
    · obtain ⟨w, _, hmap⟩ := unite_rootD_diff hwf hu hv hsame
      rw [hmap x hx]
      rw [if_neg ?_]
      rintro (h | h)
      · exact hux h.symm
      · exact hvx h.symm

theorem find_stable_witness :
    (∀ y, y < (UF.construct 2).n → (((UF.construct 2).find y).1.rootD 0 =
        (UF.construct 2).rootD 0 ∧
      (((UF.construct 2).find y).1.find 0).2 = (UF.construct 2).rootD 0)) ∧
    (∀ u v, u < (UF.construct 2).n → v < (UF.construct 2).n →
      (UF.construct 2).rootD u ≠ (UF.construct 2).rootD 0 →
      (UF.construct 2).rootD v ≠ (UF.construct 2).rootD 0 →
      ((UF.construct 2).unite u v).1.rootD 0 = (UF.construct 2).rootD 0) :=
  find_stable (construct_WF 2) (by decide)

/-- C7: `unionSets` (union by rank) attaches the root of strictly lower rank
under the root of strictly higher rank without changing any rank; on equal
ranks it attaches `v`'s root under `u`'s root and increments only the rank
of `u`'s root; and when the two roots coincide no rank entry changes. -/
theorem union_by_rank_policy {s : UF} (hwf : s.WF) {u v : Nat} (hu : u < s.n)
    (hv : v < s.n) :
    (s.rootD u = s.rootD v → (s.unionSets u v).rank = s.rank) ∧
    (s.rootD u ≠ s.rootD v →
      (s.rank (s.rootD u) < s.rank (s.rootD v) →
        (s.unionSets u v).parent (s.rootD u) = s.rootD v ∧
        (s.unionSets u v).rank = s.rank) ∧
      (s.rank (s.rootD v) < s.rank (s.rootD u) →
        (s.unionSets u v).parent (s.rootD v) = s.rootD u ∧
        (s.unionSets u v).rank = s.rank) ∧
      (s.rank (s.rootD u) = s.rank (s.rootD v) →
        (s.unionSets u v).parent (s.rootD v) = s.rootD u ∧
        (s.unionSets u v).rank (s.rootD u) = s.rank (s.rootD u) + 1 ∧
        ∀ w, w ≠ s.rootD u → (s.unionSets u v).rank w = s.rank w)) := by
  constructor
  · intro hsame
    rw [unionSets_eq_same hwf hu hv hsame]
    exact find2_rank s u v
  · intro hdiff
    refine ⟨fun hlt => ?_, fun hgt => ?_, fun heq => ?_⟩
    · rw [unionSets_eq_lt hwf hu hv hdiff hlt]
      exact ⟨by simp, rfl⟩
    · rw [unionSets_eq_gt hwf hu hv hdiff hgt]
      exact ⟨by simp, rfl⟩
    · rw [unionSets_eq_eq hwf hu hv hdiff heq]
      refine ⟨by simp, by simp, fun w hw => ?_⟩
      exact Function.update_noteq hw _ _

theorem union_by_rank_policy_witness :
    ((UF.construct 2).rootD 0 = (UF.construct 2).rootD 1 →
      ((UF.construct 2).unionSets 0 1).rank = (UF.construct 2).rank) ∧
    ((UF.construct 2).rootD 0 ≠ (UF.construct 2).rootD 1 →
      ((UF.construct 2).rank ((UF.construct 2).rootD 0) <
          (UF.construct 2).rank ((UF.construct 2).rootD 1) →
        ((UF.construct 2).unionSets 0 1).parent ((UF.construct 2).rootD 0) =
          (UF.construct 2).rootD 1 ∧
        ((UF.construct 2).unionSets 0 1).rank = (UF.construct 2).rank) ∧
      ((UF.construct 2).rank ((UF.construct 2).rootD 1) <
          (UF.construct 2).rank ((UF.construct 2).rootD 0) →
        ((UF.construct 2).unionSets 0 1).parent ((UF.construct 2).rootD 1) =
          (UF.construct 2).rootD 0 ∧
        ((UF.construct 2).unionSets 0 1).rank = (UF.construct 2).rank) ∧
      ((UF.construct 2).rank ((UF.construct 2).rootD 0) =
          (UF.construct 2).rank ((UF.construct 2).rootD 1) →
        ((UF.construct 2).unionSets 0 1).parent ((UF.construct 2).rootD 1) =
          (UF.construct 2).rootD 0 ∧
        ((UF.construct 2).unionSets 0 1).rank ((UF.construct 2).rootD 0) =
          (UF.construct 2).rank ((UF.construct 2).rootD 0) + 1 ∧
        ∀ w, w ≠ (UF.construct 2).rootD 0 →
          ((UF.construct 2).unionSets 0 1).rank w = (UF.construct 2).rank w)) :=
  union_by_rank_policy (construct_WF 2) (by decide) (by decide)

/-- C8: `unionBySize` attaches the root of the strictly smaller set under
the root of the larger set, and afterwards the size recorded (in the updated
size vector) at the root of `u`'s set equals the sum of the two original set
sizes; the two merged elements end up with the same root. -/
theorem union_by_size_policy {s : UF} (hwf : s.WF) {u v : Nat} (hu : u < s.n)
    (hv : v < s.n) (size : Nat → Nat) (hdiff : s.rootD u ≠ s.rootD v) :
    (size (s.rootD u) < size (s.rootD v) →
      (s.unionBySize u v size).1.parent (s.rootD u) = s.rootD v) ∧
    (size (s.rootD v) < size (s.rootD u) →
      (s.unionBySize u v size).1.parent (s.rootD v) = s.rootD u) ∧
    ((s.unionBySize u v size).2 ((s.unionBySize u v size).1.rootD u) =
      size (s.rootD u) + size (s.rootD v)) ∧
    ((s.unionBySize u v size).1.rootD u = (s.unionBySize u v size).1.rootD v) := by
  have hmain : ∀ a, a < s.n → (s.unionBySize u v size).1.rootD a =
      if s.rootD a = s.rootD u ∨ s.rootD a = s.rootD v then
        (if size (s.rootD u) < size (s.rootD v) then s.rootD v else s.rootD u)
      else s.rootD a := by
    by_cases hlt : size (s.rootD u) < size (s.rootD v)
    · intro a ha
      rw [if_pos hlt]
      exact (find2_link_spec hwf hu hv hdiff (w := s.rootD v) (l := s.rootD u)
        (Or.inr ⟨rfl, rfl⟩) (t := (s.unionBySize u v size).1)
        (by rw [unionBySize_eq_lt hwf hu hv size hdiff hlt]; rfl)
        (by rw [unionBySize_eq_lt hwf hu hv size hdiff hlt])).2 a ha
    · intro a ha
      rw [if_neg hlt]
      exact (find2_link_spec hwf hu hv hdiff (w := s.rootD u) (l := s.rootD v)
        (Or.inl ⟨rfl, rfl⟩) (t := (s.unionBySize u v size).1)
        (by rw [unionBySize_eq_ge hwf hu hv size hdiff hlt]; rfl)
        (by rw [unionBySize_eq_ge hwf hu hv size hdiff hlt])).2 a ha
  refine ⟨fun hlt => ?_, fun hgt => ?_, ?_, ?_⟩
  · rw [unionBySize_eq_lt hwf hu hv size hdiff hlt]
    simp
  · have hge : ¬ size (s.rootD u) < size (s.rootD v) := by omega
    rw [unionBySize_eq_ge hwf hu hv size hdiff hge]
    simp
  · have hu' := hmain u hu
    rw [if_pos (Or.inl rfl)] at hu'
    rw [hu']
    by_cases hlt : size (s.rootD u) < size (s.rootD v)
    · rw [if_pos hlt, unionBySize_eq_lt hwf hu hv size hdiff hlt]
      have hvu : s.rootD v ≠ s.rootD u := Ne.symm hdiff
      simp [Nat.add_comm]
    · rw [if_neg hlt, unionBySize_eq_ge hwf hu hv size hdiff hlt]
      simp
  · have hu' := hmain u hu
    have hv' := hmain v hv
    rw [if_pos (Or.inl rfl)] at hu'
    rw [if_pos (Or.inr rfl)] at hv'
    rw [hu', hv']

theorem union_by_size_policy_witness :
    (((fun _ => 1 : Nat → Nat) ((UF.construct 2).rootD 0) <
        (fun _ => 1 : Nat → Nat) ((UF.construct 2).rootD 1) →
      ((UF.construct 2).unionBySize 0 1 (fun _ => 1)).1.parent
        ((UF.construct 2).rootD 0) = (UF.construct 2).rootD 1) ∧
    ((fun _ => 1 : Nat → Nat) ((UF.construct 2).rootD 1) <
        (fun _ => 1 : Nat → Nat) ((UF.construct 2).rootD 0) →
      ((UF.construct 2).unionBySize 0 1 (fun _ => 1)).1.parent
        ((UF.construct 2).rootD 1) = (UF.construct 2).rootD 0) ∧
    (((UF.construct 2).unionBySize 0 1 (fun _ => 1)).2
        (((UF.construct 2).unionBySize 0 1 (fun _ => 1)).1.rootD 0) =
      (fun _ => 1 : Nat → Nat) ((UF.construct 2).rootD 0) +
        (fun _ => 1 : Nat → Nat) ((UF.construct 2).rootD 1)) ∧
    (((UF.construct 2).unionBySize 0 1 (fun _ => 1)).1.rootD 0 =
      ((UF.construct 2).unionBySize 0 1 (fun _ => 1)).1.rootD 1)) :=
  union_by_size_policy (construct_WF 2) (by decide) (by decide) (fun _ => 1)
    (by decide)

/-- C10: the three-argument overload `unionSets(u, v, byRank)` behaves
exactly like the two-argument union by rank when `byRank` is `true`; when
`byRank` is `false` it never touches the rank vector, and for distinct roots
it always attaches the root of `v` under the root of `u`. -/
theorem unionSets_overload {s : UF} (hwf : s.WF) {u v : Nat} (hu : u < s.n)
    (hv : v < s.n) :
    (∀ (t : UF) (a b : Nat), t.unionSets3 a b true = t.unionSets a b) ∧
    (∀ (t : UF) (a b : Nat), (t.unionSets3 a b false).rank = t.rank) ∧
    (s.rootD u ≠ s.rootD v →
      (s.unionSets3 u v false).parent (s.rootD v) = s.rootD u) := by
  refine ⟨fun t a b => rfl, fun t a b => ?_, fun hdiff => ?_⟩
  · by_cases hc : (t.find a).2 = ((t.find a).1.find b).2
    · simp [UF.unionSets3, hc, find2_rank]
    · simp [UF.unionSets3, hc, find2_rank]
  · rw [unionSets3_false_eq_diff hwf hu hv hdiff]
    simp

theorem unionSets_overload_witness :
    ((∀ (t : UF) (a b : Nat), t.unionSets3 a b true = t.unionSets a b) ∧
    (∀ (t : UF) (a b : Nat), (t.unionSets3 a b false).rank = t.rank) ∧
    ((UF.construct 2).rootD 0 ≠ (UF.construct 2).rootD 1 →
      ((UF.construct 2).unionSets3 0 1 false).parent ((UF.construct 2).rootD 1) =
        (UF.construct 2).rootD 0)) :=
  unionSets_overload (construct_WF 2) (by decide) (by decide)

/-! ### Sequences of operations that do not involve a given element's set -/

/-- `UF.StableOps x s t`: state `t` is obtained from `s` by a sequence of
`find` calls (on any valid element) and `unite` calls on valid pairs neither
of which lies in `x`'s set at the moment of the call. -/
inductive UF.StableOps (x : Nat) : UF → UF → Prop where
  | refl (s : UF) : UF.StableOps x s s
  | find {s t : UF} (u : Nat) : UF.StableOps x s t → u < t.n →
      UF.StableOps x s (t.find u).1
  | unite {s t : UF} (u v : Nat) : UF.StableOps x s t → u < t.n → v < t.n →
      t.rootD u ≠ t.rootD x → t.rootD v ≠ t.rootD x →
      UF.StableOps x s (t.unite u v).1

theorem stableOps_spec {s : UF} (hwf : s.WF) {x : Nat} (hx : x < s.n)
    {t : UF} (hseq : UF.StableOps x s t) :
    t.WF ∧ t.n = s.n ∧ t.rootD x = s.rootD x := by
  induction hseq with
  | refl => exact ⟨hwf, rfl, rfl⟩
  | find u _ hu ih =>
    obtain ⟨hwt, hnt, hrt⟩ := ih
    have hxt := hnt.symm ▸ hx
    exact ⟨find_WF hwt hu, by rw [find_n]; exact hnt,
      by rw [find_rootD hwt hu hxt]; exact hrt⟩
  | unite u v _ hu hv hux hvx ih =>
    obtain ⟨hwt, hnt, hrt⟩ := ih
    have hxt := hnt.symm ▸ hx
    refine ⟨unite_WF hwt hu hv, by rw [unite_n hwt hu hv]; exact hnt, ?_⟩
    have := (find_stable hwt hxt).2 u v hu hv hux hvx
    rw [this]
    exact hrt

/-- C6: `find` is stable: after any sequence of `find` calls and of `unite`
calls not involving `x`'s set, `x`'s root is unchanged and `find x` still
returns the old root; path compression (a `find` on any element) never
changes the root any element's set maps to, only the traversal length. -/
theorem find_stable_sequences {s : UF} (hwf : s.WF) {x : Nat} (hx : x < s.n) :
    (∀ t : UF, UF.StableOps x s t →
      t.rootD x = s.rootD x ∧ (t.find x).2 = s.rootD x) ∧
    (∀ y, y < s.n → ∀ a, a < s.n → (s.find y).1.rootD a = s.rootD a) := by
  constructor
  · intro t hseq
    obtain ⟨hwt, hnt, hrt⟩ := stableOps_spec hwf hx hseq
    refine ⟨hrt, ?_⟩
    rw [find_val hwt (hnt.symm ▸ hx), hrt]
  · intro y hy a ha
    exact find_rootD hwf hy ha

theorem find_stable_sequences_witness :
    ((∀ t : UF, UF.StableOps 0 (UF.construct 2) t →
      t.rootD 0 = (UF.construct 2).rootD 0 ∧
      (t.find 0).2 = (UF.construct 2).rootD 0) ∧
    (∀ y, y < (UF.construct 2).n → ∀ a, a < (UF.construct 2).n →
      ((UF.construct 2).find y).1.rootD a = (UF.construct 2).rootD a)) :=
  find_stable_sequences (construct_WF 2) (by decide)
